import Mathlib

/-! Verification development for the AA-tree ordered set in `Set.h`.

`Set<ValueType>` keeps its elements in an AA-tree of `Node` records
(value, level, parent and two child pointers).  The embedding below is
value-level: `Tree V` mirrors the child structure (`nil` is the null
pointer), a node's identity (its address in C++) is represented by the
root-to-node path of `L`/`R` steps, and parent-pointer walks become
operations on such paths.  Each private member function of the class is
translated to a pure function of the same name; the public wrappers act
on a `SetState` record holding the `tree_root_` and `set_size_` fields. -/

namespace AASet

set_option linter.unusedSectionVars false

/-- One descent step: `L` follows `left_son`, `R` follows `right_son`. -/
inductive Dir
  | L
  | R
deriving DecidableEq

/-- Root-to-node path: the identity of a node inside a tree, standing in
for the node's address in C++. -/
abbrev Path := List Dir

/-- Embedding of the `Node` structure of `Set.h`: `nil` is the null
pointer and `node l x k r` is a vertex with `value` `x`, `level` `k`,
`left_son` `l` and `right_son` `r`.  Parent pointers are not stored; the
parent of a node at path `p` is the node at `p.dropLast`. -/
inductive Tree (V : Type)
  | nil
  | node (l : Tree V) (x : V) (k : Nat) (r : Tree V)
deriving DecidableEq

variable {V : Type}

/-- Level of a vertex; the null pointer counts as level `0`. -/
def lvl : Tree V → Nat
  | .nil => 0
  | .node _ _ k _ => k

/-- Left child (`left_son`), null for the null pointer. -/
def leftT : Tree V → Tree V
  | .nil => .nil
  | .node l _ _ _ => l

/-- Right child (`right_son`), null for the null pointer. -/
def rightT : Tree V → Tree V
  | .nil => .nil
  | .node _ _ _ r => r

/-- In-order traversal of the stored values. -/
def inorder : Tree V → List V
  | .nil => []
  | .node l x _ r => inorder l ++ x :: inorder r

/-- `Set::Skew` (Set.h lines 213-226): if the left son exists and has the
same level as the vertex, rotate right, promoting the left son; otherwise
return the vertex unchanged. -/
def Skew : Tree V → Tree V
  | .node (.node a y ly b) x lx r =>
    if ly = lx then .node a y ly (.node b x lx r)
    else .node (.node a y ly b) x lx r
  | t => t

/-- `Set::Split` (Set.h lines 229-244): if the right son and its right son
exist and the right-right grandchild has the vertex's level, rotate left,
promoting the right son and incrementing its level; otherwise return the
vertex unchanged. -/
def Split : Tree V → Tree V
  | .node a x lx (.node b y ly (.node c z lz d)) =>
    if lx = lz then .node (.node a x lx b) y (ly + 1) (.node c z lz d)
    else .node a x lx (.node b y ly (.node c z lz d))
  | t => t

/-- Path transport along `Skew`: where the node that sat at path `p` in
`t` sits in `Skew t` (node addresses are stable across the rotation; only
their positions change). -/
def skewPath : Tree V → Path → Path
  | .node (.node _ _ ly _) _ lx _, p =>
    if ly = lx then
      match p with
      | [] => [.R]
      | [.L] => []
      | .L :: .L :: q => .L :: q
      | .L :: .R :: q => .R :: .L :: q
      | .R :: q => .R :: .R :: q
    else p
  | _, p => p

/-- Path transport along `Split`: where the node that sat at path `p` in
`t` sits in `Split t`. -/
def splitPath : Tree V → Path → Path
  | .node _ _ lx (.node _ _ _ (.node _ _ lz _)), p =>
    if lx = lz then
      match p with
      | [] => [.L]
      | .L :: q => .L :: .L :: q
      | [.R] => []
      | .R :: .L :: q => .L :: .R :: q
      | .R :: .R :: q => .R :: q
    else p
  | _, p => p

variable [LinearOrder V]

/-- `Set::Insert` (Set.h lines 248-267).  Returns the new subtree root,
the path (in the returned subtree) of `inserted_vertex` — the node that
holds the given value — and whether a new node was created (the
`++set_size_` side effect).  On the way back up every ancestor applies
`Skew` then `Split`; `skewPath`/`splitPath` track where the pointer
`inserted_vertex` ends up. -/
def Insert : Tree V → V → Tree V × Path × Bool
  | .nil, v => (.node .nil v 1 .nil, [], true)
  | .node l x k r, v =>
    if v < x then
      let res := Insert l v
      let t1 : Tree V := .node res.1 x k r
      let p1 : Path := .L :: res.2.1
      (Split (Skew t1), splitPath (Skew t1) (skewPath t1 p1), res.2.2)
    else if x < v then
      let res := Insert r v
      let t1 : Tree V := .node l x k res.1
      let p1 : Path := .R :: res.2.1
      (Split (Skew t1), splitPath (Skew t1) (skewPath t1 p1), res.2.2)
    else (.node l x k r, [], false)

/-- The data members of `Set`: `tree_root_` and `set_size_`. -/
structure SetState (V : Type) where
  root : Tree V
  sz : Nat
deriving DecidableEq

/-- `Set::insert` (Set.h lines 155-160): calls `Insert`, then returns the
iterator of `inserted_vertex` together with the boolean
`set_size_ == previous_size`. -/
def setInsert (s : SetState V) (v : V) : SetState V × Path × Bool :=
  let res := Insert s.root v
  let newSz := s.sz + (if res.2.2 then 1 else 0)
  (⟨res.1, newSz⟩, res.2.1, decide (newSz = s.sz))

/-- `Set::DecreaseLevel` (Set.h lines 270-283): normalize the vertex's
level to `min(left.level, right.level) + 1` (or `1` if a child is
missing), capping the right child's level when it exceeds the new
level. -/
def DecreaseLevel : Tree V → Tree V
  | .nil => .nil
  | .node l x k r =>
    let expected : Nat :=
      match l, r with
      | .nil, _ => 1
      | _, .nil => 1
      | _, _ => min (lvl l) (lvl r) + 1
    if expected < k then
      match r with
      | .node rl ry rk rr =>
        if expected < rk then .node l x expected (.node rl ry expected rr)
        else .node l x expected (.node rl ry rk rr)
      | .nil => .node l x expected .nil
    else .node l x k r

/-- Walk of `Set::Successor` after stepping to the right son: follow
`left_son` links, returning the last value seen (`x` if the tree is
null). -/
def leftmostFrom (x : V) : Tree V → V
  | .nil => x
  | .node l y _ _ => leftmostFrom y l

/-- Walk of `Set::Predecessor` after stepping to the left son: follow
`right_son` links, returning the last value seen (`x` if the tree is
null). -/
def rightmostFrom (x : V) : Tree V → V
  | .nil => x
  | .node _ y _ r => rightmostFrom y r

/-- Apply `f` to the right son of a vertex (identity on the null
pointer). -/
def onRight (f : Tree V → Tree V) : Tree V → Tree V
  | .nil => .nil
  | .node l x k r => .node l x k (f r)

/-- The guarded assignment `if (t->right_son != nullptr) t->right_son =
f(t->right_son)` used on lines 329-338 of `Set.h`. -/
def withRightPresent (f : Tree V → Tree V) : Tree V → Tree V
  | .node l x k (.node a b c d) => .node l x k (f (.node a b c d))
  | u => u

/-- The rebalancing sequence of `Set::Erase` after `DecreaseLevel`
(Set.h lines 329-338): if the right son exists, `Skew` it, and if its
right son exists, `Skew` that too; then `Split` the vertex, and `Split`
its (possibly new) right son if it exists.  Note that no `Skew` is
applied to the vertex itself. -/
def eraseRebalanceCore (t : Tree V) : Tree V :=
  let t1 := withRightPresent (fun r => withRightPresent Skew (Skew r)) t
  let t2 := Split t1
  withRightPresent Split t2

/-- Lines 328-339 of `Set::Erase`: `DecreaseLevel` followed by the
skew/split rebalancing sequence. -/
def eraseRebalance (t : Tree V) : Tree V :=
  eraseRebalanceCore (DecreaseLevel t)

/-- Modelled from the spec: the erase rebalancing described in §4.3
("reapplies Skew to the node, to its right child, and to the right
child's right child, followed by Split to the node and then to its
(possibly new) right child"), to be compared with `eraseRebalanceCore`,
the rebalancing the code performs. -/
def eraseRebalanceSpec (t : Tree V) : Tree V :=
  let t1 := Skew t
  let t2 := onRight Skew t1
  let t3 := onRight (onRight Skew) t2
  let t4 := Split t3
  onRight Split t4

/-- `Set::Erase` (Set.h lines 304-340).  Returns the new subtree root and
the number of `delete`/`--set_size_` events (0 or 1).  An absent value
erases nothing; a leaf is deleted directly; otherwise the value is
overwritten with the in-order successor (when the left son is null) or
predecessor (when the left son exists) and that value is erased from the
corresponding subtree.  Every non-leaf return path runs
`eraseRebalance`. -/
def Erase : Tree V → V → Tree V × Nat
  | .nil, _ => (.nil, 0)
  | .node l x k r, v =>
    if v < x then
      let res := Erase l v
      (eraseRebalance (.node res.1 x k r), res.2)
    else if x < v then
      let res := Erase r v
      (eraseRebalance (.node l x k res.1), res.2)
    else
      match l, r with
      | .nil, .nil => (.nil, 1)
      | .nil, .node rl ry rk rr =>
        let s := leftmostFrom ry rl
        let res := Erase (.node rl ry rk rr) s
        (eraseRebalance (.node .nil s k res.1), res.2)
      | .node ll ly lk lr, _ =>
        let s := rightmostFrom ly lr
        let res := Erase (.node ll ly lk lr) s
        (eraseRebalance (.node res.1 s k r), res.2)

/-- `Set::erase` (Set.h lines 163-167): runs `Erase` and returns
`previous_size - set_size_`. -/
def setErase (s : SetState V) (v : V) : SetState V × Nat :=
  let res := Erase s.root v
  let newSz := s.sz - res.2
  (⟨res.1, newSz⟩, s.sz - newSz)

/-- `Set::Find` (Set.h lines 384-396) with the descent path made
explicit: `p` accumulates the directions taken from the root, so the
returned path is the address of the found node (`none` is the returned
null pointer). -/
def Find : Tree V → V → Path → Option Path
  | .nil, _, _ => none
  | .node l x _ r, v, p =>
    if v < x then Find l v (p ++ [Dir.L])
    else if x < v then Find r v (p ++ [Dir.R])
    else some p

/-- `Set::find`'s call `Find(tree_root_, value)`. -/
def findRoot (t : Tree V) (v : V) : Option Path := Find t v []

/-- `Set::LowerBound` (Set.h lines 400-413) with the descent path made
explicit; `ans` is the best-candidate node recorded when descending
left. -/
def LowerBound : Tree V → V → Option Path → Path → Option Path
  | .nil, _, ans, _ => ans
  | .node l x _ r, v, ans, p =>
    if v < x then LowerBound l v (some p) (p ++ [Dir.L])
    else if x < v then LowerBound r v ans (p ++ [Dir.R])
    else some p

/-- `Set::lower_bound`'s call `LowerBound(tree_root_, value)`. -/
def lowerBoundRoot (t : Tree V) (v : V) : Option Path :=
  LowerBound t v none []

/-- Subtree reached from `t` by following the path `p` (`none` when the
walk steps through a null pointer). -/
def subAt : Tree V → Path → Option (Tree V)
  | t, [] => some t
  | .nil, _ :: _ => none
  | .node l _ _ _, .L :: p => subAt l p
  | .node _ _ _ r, .R :: p => subAt r p

/-- Value stored at the node addressed by `p` (`none` when `p` does not
address a node). -/
def valueAt (t : Tree V) (p : Path) : Option V :=
  match subAt t p with
  | some (.node _ x _ _) => some x
  | _ => none

/-- Path of the leftmost node: the `while (t->left_son) t = t->left_son`
walk of `Set::begin` and `Set::Successor`. -/
def leftSpine : Tree V → Path
  | .nil => []
  | .node .nil _ _ _ => []
  | .node (.node a y m b) _ _ _ => .L :: leftSpine (.node a y m b)

/-- Path of the rightmost node: the `while (t->right_son)` walk of
`Set::iterator::operator--` on the end iterator and of
`Set::Predecessor`. -/
def rightSpine : Tree V → Path
  | .nil => []
  | .node _ _ _ .nil => []
  | .node _ _ _ (.node a y m b) => .R :: rightSpine (.node a y m b)

/-- Parent walk of `Set::Next` on a reversed path: move up while the
vertex is a right child; at a left child return the parent; at the root
return the null parent. -/
def upNextRev : List Dir → Option (List Dir)
  | [] => none
  | .L :: p => some p
  | .R :: p => upNextRev p

/-- Parent walk of `Set::Next` (lines 347-350) in path form. -/
def nextUp (p : Path) : Option Path :=
  (upNextRev p.reverse).map List.reverse

/-- Parent walk of `Set::Prev` on a reversed path: move up while the
vertex is a left child; at a right child return the parent; at the root
return the null parent. -/
def upPrevRev : List Dir → Option (List Dir)
  | [] => none
  | .R :: p => some p
  | .L :: p => upPrevRev p

/-- Parent walk of `Set::Prev` (lines 358-361) in path form. -/
def prevUp (p : Path) : Option Path :=
  (upPrevRev p.reverse).map List.reverse

/-- `Set::Next` (Set.h lines 343-351): the in-order step taken by
`iterator::operator++` on a non-end iterator.  With a right son, the
result is `Successor` (right son, then leftmost); otherwise the parent
walk.  `none` models returning the null pointer (end). -/
def Next (t : Tree V) (p : Path) : Option Path :=
  match subAt t p with
  | some (.node _ _ _ (.node rl ry rk rr)) =>
    some (p ++ .R :: leftSpine (.node rl ry rk rr))
  | some (.node _ _ _ .nil) => nextUp p
  | _ => none

/-- `Set::Prev` (Set.h lines 354-362): the in-order step taken by
`iterator::operator--` on a non-end iterator. -/
def Prev (t : Tree V) (p : Path) : Option Path :=
  match subAt t p with
  | some (.node (.node ll ly lk lr) _ _ _) =>
    some (p ++ .L :: rightSpine (.node ll ly lk lr))
  | some (.node .nil _ _ _) => prevUp p
  | _ => none

/-- `Set::iterator::operator--` (Set.h lines 114-124): on the end
iterator walk to the rightmost node from the root, otherwise call
`Prev`. -/
def iterDec (t : Tree V) : Option Path → Option Path
  | none => some (rightSpine t)
  | some p => Prev t p

/-- `Set::Set(Set&&)` (Set.h lines 51-54): the fresh object's members are
`tree_root_ = nullptr`, `set_size_ = 0`; the constructor swaps the roots
and copies `set_size_` from the source — the source's `set_size_` is
never reset.  Returns (destination, source-after-move). -/
def moveConstruct (s : SetState V) : SetState V × SetState V :=
  (⟨s.root, s.sz⟩, ⟨.nil, s.sz⟩)

/-- `Set::operator=(Set&&)` (Set.h lines 66-70) on a store of `Set`
objects indexed by `Nat` (so that self-assignment aliases correctly):
`std::swap(tree_root_, s.tree_root_)` then `set_size_ = s.set_size_`. -/
def moveAssignStore (σ : Nat → SetState V) (dst src : Nat) :
    Nat → SetState V :=
  let tmp := (σ dst).root
  let σ1 := Function.update σ dst ⟨(σ src).root, (σ dst).sz⟩
  let σ2 := Function.update σ1 src ⟨tmp, (σ1 src).sz⟩
  Function.update σ2 dst ⟨(σ2 dst).root, (σ2 src).sz⟩

/-- One public mutating operation of the container. -/
inductive Op (V : Type)
  | ins (v : V)
  | del (v : V)

/-- Whether an operation is an insertion. -/
def Op.isIns : Op V → Bool
  | .ins _ => true
  | .del _ => false

/-- Run one operation on the tree root. -/
def applyOp (t : Tree V) : Op V → Tree V
  | .ins v => (Insert t v).1
  | .del v => (Erase t v).1

/-- Run a sequence of operations starting from the empty set. -/
def applyOps (ops : List (Op V)) : Tree V :=
  ops.foldl applyOp .nil

/-- The AA-tree level invariant, spec §3 clauses 2a-2d, at every node:
a null child has level 0 (built into `lvl`); a node's level is one more
than its left child's; the right child's level equals the node's or is
one less; the right-right grandchild's level is strictly smaller. -/
def invar : Tree V → Prop
  | .nil => True
  | .node l _ k r =>
    invar l ∧ invar r ∧ k = lvl l + 1 ∧ (lvl r = k ∨ lvl r + 1 = k) ∧
      lvl (rightT r) < k

/-- No right-horizontal link at the root (false for the null tree). -/
def sngl : Tree V → Prop
  | .nil => False
  | .node _ _ k r => lvl r < k

/-- Binary-search-tree ordering: everything left of a node is smaller,
everything right of it larger. -/
def IsBST : Tree V → Prop
  | .nil => True
  | .node l x _ r =>
    IsBST l ∧ IsBST r ∧ (∀ y ∈ inorder l, y < x) ∧ (∀ y ∈ inorder r, x < y)

instance invarDecidable : (t : Tree V) → Decidable (invar t)
  | .nil => .isTrue trivial
  | .node l x k r =>
    letI : Decidable (invar l) := invarDecidable l
    letI : Decidable (invar r) := invarDecidable r
    decidable_of_iff
      (invar l ∧ invar r ∧ k = lvl l + 1 ∧ (lvl r = k ∨ lvl r + 1 = k) ∧
        lvl (rightT r) < k)
      (by simp [invar])

instance isBSTDecidable : (t : Tree V) → Decidable (IsBST t)
  | .nil => .isTrue trivial
  | .node l x k r =>
    letI : Decidable (IsBST l) := isBSTDecidable l
    letI : Decidable (IsBST r) := isBSTDecidable r
    decidable_of_iff
      (IsBST l ∧ IsBST r ∧ (∀ y ∈ inorder l, y < x) ∧ (∀ y ∈ inorder r, x < y))
      (by simp [IsBST])

/-- C1: the claim says the boolean returned by `insert` is `true` exactly
when a new element was added; the code returns
`set_size_ == previous_size`, which is `true` exactly when NO element was
added, contradicting the comment on lines 153-154 of `Set.h`.  On the
empty set, inserting `0` adds an element yet returns `false`; inserting
`0` again adds nothing yet returns `true`. -/
theorem insert_bool_inverted :
    (inorder (setInsert (⟨.nil, 0⟩ : SetState Nat) 0).1.root = [0] ∧
      (setInsert (⟨.nil, 0⟩ : SetState Nat) 0).2.2 = false) ∧
    (inorder (setInsert (setInsert (⟨.nil, 0⟩ : SetState Nat) 0).1 0).1.root = [0] ∧
      (setInsert (setInsert (⟨.nil, 0⟩ : SetState Nat) 0).1 0).2.2 = true) := by
  decide

/-- C2 (counterexample): the tree reached from the empty set by
insert 1, insert 2, insert 3, erase 3 violates the AA level invariant —
the root has level 1 while its left child also has level 1 (clause 2b
requires the node's level to be one more than its left child's), because
`Erase` never applies `Skew` to the node whose level was decreased. -/
theorem invar_broken_after_erase :
    ¬ invar (applyOps [Op.ins 1, Op.ins 2, Op.ins 3, Op.del 3] : Tree Nat) := by
  decide

/-- C3: the claim says a moved-from set is left empty with size 0; the
move constructor and move assignment swap the roots but never reset the
source's `set_size_`.  Moving from the one-element set `{1}` leaves the
source with `size() == 1` although its tree is empty; move-assigning it
into object 1 of a two-object store likewise leaves object 0 with
`set_size_ == 1`. -/
theorem move_leaves_source_size :
    ((moveConstruct (⟨.node .nil 1 1 .nil, 1⟩ : SetState Nat)).2.sz = 1 ∧
      inorder (moveConstruct (⟨.node .nil 1 1 .nil, 1⟩ : SetState Nat)).2.root = []) ∧
    ((moveAssignStore
        (fun i => if i = 0 then (⟨.node .nil 1 1 .nil, 1⟩ : SetState Nat) else ⟨.nil, 0⟩)
        1 0) 0).sz = 1 := by
  decide

/-- C4 (counterexample): on the subtree whose root (level 1) has a
same-level left child, the rebalancing the code performs after
`DecreaseLevel` differs from the spec's sequence, because the code never
applies `Skew` to the node itself. -/
theorem eraseRebalance_ne_spec :
    eraseRebalanceCore (.node (.node .nil 1 1 .nil) 2 1 .nil : Tree Nat) ≠
      eraseRebalanceSpec (.node (.node .nil 1 1 .nil) 2 1 .nil) := by
  decide

/-- The null check of `withRightPresent` only avoids dereferencing the
null pointer: whenever `f` fixes `nil`, it is plain `onRight f`. -/
lemma withRightPresent_eq_onRight (f : Tree V → Tree V) (hf : f .nil = .nil)
    (t : Tree V) : withRightPresent f t = onRight f t := by
  cases t with
  | nil => rfl
  | node l x k r => cases r with
    | nil => simp [withRightPresent, onRight, hf]
    | node a b c d => rfl

/-- The guarded skew/split sequence of `Erase` written with the null
checks removed. -/
lemma eraseRebalanceCore_eq (t : Tree V) :
    eraseRebalanceCore t =
      onRight Split (Split (onRight (onRight Skew) (onRight Skew t))) := by
  show withRightPresent Split
      (Split (withRightPresent (fun r => withRightPresent Skew (Skew r)) t)) = _
  rw [withRightPresent_eq_onRight Split rfl]
  congr 2
  rw [withRightPresent_eq_onRight _ rfl]
  cases t with
  | nil => rfl
  | node l x k r =>
    show Tree.node l x k (withRightPresent Skew (Skew r)) =
      Tree.node l x k (onRight Skew (Skew r))
    rw [withRightPresent_eq_onRight Skew rfl]

/-- C4 (amended): after normalizing a node's level, the erase rebalancing
applies Skew to the node's right child and to that child's right child —
but not to the node itself — and then Split to the node and to its
(possibly new) right child.  It therefore agrees with the spec's sequence
exactly on trees where Skew of the node is the identity (no left
horizontal link at the root). -/
theorem eraseRebalance_no_self_skew (t : Tree V) (h : Skew t = t) :
    eraseRebalanceCore t = eraseRebalanceSpec t := by
  rw [eraseRebalanceCore_eq]
  show _ = onRight Split (Split (onRight (onRight Skew) (onRight Skew (Skew t))))
  rw [h]

/-- Witness for C4's amended theorem at a concrete skew-free tree. -/
theorem eraseRebalance_no_self_skew_witness :
    Skew (.node .nil 5 1 .nil : Tree Nat) = .node .nil 5 1 .nil ∧
      eraseRebalanceCore (.node .nil 5 1 .nil : Tree Nat) =
        eraseRebalanceSpec (.node .nil 5 1 .nil) :=
  ⟨rfl, eraseRebalance_no_self_skew _ rfl⟩

/-- Equation for `Insert` when descending left. -/
lemma Insert_lt {v x : V} (l r : Tree V) (k : Nat) (h : v < x) :
    Insert (.node l x k r) v =
      (Split (Skew (.node (Insert l v).1 x k r)),
       splitPath (Skew (.node (Insert l v).1 x k r))
         (skewPath (.node (Insert l v).1 x k r) (.L :: (Insert l v).2.1)),
       (Insert l v).2.2) := by
  simp [Insert, h]

/-- Equation for `Insert` when descending right. -/
lemma Insert_gt {v x : V} (l r : Tree V) (k : Nat) (h1 : ¬ v < x)
    (h2 : x < v) :
    Insert (.node l x k r) v =
      (Split (Skew (.node l x k (Insert r v).1)),
       splitPath (Skew (.node l x k (Insert r v).1))
         (skewPath (.node l x k (Insert r v).1) (.R :: (Insert r v).2.1)),
       (Insert r v).2.2) := by
  simp [Insert, h1, h2]

/-- Equation for `Insert` when the value is already present. -/
lemma Insert_found {v x : V} (l r : Tree V) (k : Nat) (h1 : ¬ v < x)
    (h2 : ¬ x < v) :
    Insert (.node l x k r) v = (.node l x k r, [], false) := by
  simp [Insert, h1, h2]

lemma valueAt_cons_L (l : Tree V) (x : V) (k : Nat) (r : Tree V) (p : Path) :
    valueAt (.node l x k r) (.L :: p) = valueAt l p := by
  simp [valueAt, subAt]

lemma valueAt_cons_R (l : Tree V) (x : V) (k : Nat) (r : Tree V) (p : Path) :
    valueAt (.node l x k r) (.R :: p) = valueAt r p := by
  simp [valueAt, subAt]

/-- `Skew` moves nodes around without changing any node's value: the path
transported by `skewPath` still addresses a node holding the same
value (the embedding of pointer stability across the rotation). -/
lemma valueAt_skewPath (t : Tree V) (p : Path) (w : V)
    (h : valueAt t p = some w) :
    valueAt (Skew t) (skewPath t p) = some w := by
  cases t with
  | nil => exact h
  | node l x lx r =>
    cases l with
    | nil => exact h
    | node a y ly b =>
      by_cases hE : ly = lx
      · rcases p with _ | ⟨_ | _, _ | ⟨_ | _, q⟩⟩ <;>
          simp_all [Skew, skewPath, valueAt, subAt, hE]
      · simpa [Skew, skewPath, hE] using h

/-- `Split` moves nodes around without changing any node's value: the
path transported by `splitPath` still addresses a node holding the same
value. -/
lemma valueAt_splitPath (t : Tree V) (p : Path) (w : V)
    (h : valueAt t p = some w) :
    valueAt (Split t) (splitPath t p) = some w := by
  cases t with
  | nil => exact h
  | node a x lx r =>
    cases r with
    | nil => exact h
    | node b y ly rr =>
      cases rr with
      | nil => exact h
      | node c z lz d =>
        by_cases hE : lx = lz
        · rcases p with _ | ⟨_ | _, _ | ⟨_ | _, q⟩⟩ <;>
            simp_all [Split, splitPath, valueAt, subAt, hE]
        · simpa [Split, splitPath, hE] using h

/-- C8: the iterator returned by `insert(v)` points at a stored element
whose value is `v`, both when `v` was newly created as a leaf and when it
was already present (the path then addresses the pre-existing node, and
the rotation path transport tracks that node's position). -/
theorem insert_iterator_value (t : Tree V) (v : V) :
    valueAt (Insert t v).1 (Insert t v).2.1 = some v := by
  induction t with
  | nil => rfl
  | node l x k r ihl ihr =>
    rcases lt_trichotomy v x with h | h | h
    · rw [Insert_lt l r k h]
      exact valueAt_splitPath _ _ _
        (valueAt_skewPath _ _ _ (by simpa [valueAt_cons_L] using ihl))
    · rw [Insert_found l r k (by simp [h]) (by simp [h])]
      simp [valueAt, subAt, h]
    · rw [Insert_gt l r k (by simp [le_of_lt h]) h]
      exact valueAt_splitPath _ _ _
        (valueAt_skewPath _ _ _ (by simpa [valueAt_cons_R] using ihr))

lemma inorder_Skew (t : Tree V) : inorder (Skew t) = inorder t := by
  cases t with
  | nil => rfl
  | node l x lx r =>
    cases l with
    | nil => rfl
    | node a y ly b =>
      by_cases hE : ly = lx <;> simp [Skew, hE, inorder]

lemma inorder_Split (t : Tree V) : inorder (Split t) = inorder t := by
  cases t with
  | nil => rfl
  | node a x lx r =>
    cases r with
    | nil => rfl
    | node b y ly rr =>
      cases rr with
      | nil => rfl
      | node c z lz d =>
        by_cases hE : lx = lz <;> simp [Split, hE, inorder]

lemma inorder_onRight (f : Tree V → Tree V)
    (hf : ∀ u, inorder (f u) = inorder u) (t : Tree V) :
    inorder (onRight f t) = inorder t := by
  cases t <;> simp [onRight, inorder, hf]

lemma inorder_DecreaseLevel (t : Tree V) :
    inorder (DecreaseLevel t) = inorder t := by
  cases t with
  | nil => rfl
  | node l x k r =>
    simp only [DecreaseLevel]
    repeat' split
    all_goals simp [inorder]

lemma inorder_eraseRebalanceCore (t : Tree V) :
    inorder (eraseRebalanceCore t) = inorder t := by
  rw [eraseRebalanceCore_eq,
    inorder_onRight Split inorder_Split, inorder_Split,
    inorder_onRight _ (inorder_onRight Skew inorder_Skew),
    inorder_onRight Skew inorder_Skew]

lemma inorder_eraseRebalance (t : Tree V) :
    inorder (eraseRebalance t) = inorder t := by
  rw [eraseRebalance, inorder_eraseRebalanceCore, inorder_DecreaseLevel]

/-- Structural BST ordering is the same as the in-order traversal being
strictly increasing. -/
lemma isBST_iff (t : Tree V) : IsBST t ↔ (inorder t).Sorted (· < ·) := by
  induction t with
  | nil => simp [IsBST, inorder]
  | node l x k r ihl ihr =>
    show (IsBST l ∧ IsBST r ∧ (∀ y ∈ inorder l, y < x) ∧
        (∀ y ∈ inorder r, x < y)) ↔ _
    show _ ↔ List.Sorted (· < ·) (inorder l ++ x :: inorder r)
    rw [List.Sorted, List.pairwise_append, List.pairwise_cons]
    constructor
    · rintro ⟨hL, hR, hlx, hrx⟩
      refine ⟨(ihl.mp hL : _), ⟨hrx, (ihr.mp hR : _)⟩, ?_⟩
      intro a ha b hb
      rcases List.mem_cons.mp hb with rfl | hb
      · exact hlx a ha
      · exact lt_trans (hlx a ha) (hrx b hb)
    · rintro ⟨hL, ⟨hrx, hR⟩, hcross⟩
      exact ⟨ihl.mpr hL, ihr.mpr hR,
        fun a ha => hcross a ha x (List.mem_cons_self x _), hrx⟩

/-- Insertion only adds the inserted value to the traversal. -/
lemma mem_inorder_Insert (t : Tree V) (v y : V) :
    y ∈ inorder (Insert t v).1 ↔ y = v ∨ y ∈ inorder t := by
  induction t with
  | nil => simp [Insert, inorder]
  | node l x k r ihl ihr =>
    rcases lt_trichotomy v x with h | h | h
    · rw [Insert_lt l r k h]
      show y ∈ inorder (Split (Skew (.node (Insert l v).1 x k r))) ↔ _
      rw [inorder_Split, inorder_Skew]
      show y ∈ inorder (Insert l v).1 ++ x :: inorder r ↔ _
      simp only [List.mem_append, List.mem_cons, ihl,
        show inorder (Tree.node l x k r) = inorder l ++ x :: inorder r from rfl]
      tauto
    · rw [Insert_found l r k (by simp [h]) (by simp [h])]
      subst h
      simp only [show inorder (Tree.node l v k r) = inorder l ++ v :: inorder r
          from rfl,
        List.mem_append, List.mem_cons]
      tauto
    · rw [Insert_gt l r k (by simp [le_of_lt h]) h]
      show y ∈ inorder (Split (Skew (.node l x k (Insert r v).1))) ↔ _
      rw [inorder_Split, inorder_Skew]
      show y ∈ inorder l ++ x :: inorder (Insert r v).1 ↔ _
      simp only [List.mem_append, List.mem_cons, ihr,
        show inorder (Tree.node l x k r) = inorder l ++ x :: inorder r from rfl]
      tauto

/-- `Insert` preserves the BST ordering. -/
lemma IsBST_Insert (t : Tree V) (v : V) (h : IsBST t) :
    IsBST (Insert t v).1 := by
  induction t with
  | nil => simp [Insert, IsBST, inorder]
  | node l x k r ihl ihr =>
    obtain ⟨hL, hR, hlx, hrx⟩ :
        IsBST l ∧ IsBST r ∧ (∀ y ∈ inorder l, y < x) ∧
          (∀ y ∈ inorder r, x < y) := h
    rcases lt_trichotomy v x with hv | hv | hv
    · rw [Insert_lt l r k hv]
      have hb1 : IsBST (.node (Insert l v).1 x k r) := by
        refine ⟨ihl hL, hR, ?_, hrx⟩
        intro y hy
        rcases (mem_inorder_Insert l v y).mp hy with rfl | hy
        · exact hv
        · exact hlx y hy
      rw [isBST_iff] at hb1 ⊢
      show List.Sorted _ (inorder (Split (Skew (.node (Insert l v).1 x k r))))
      rwa [inorder_Split, inorder_Skew]
    · rw [Insert_found l r k (by simp [hv]) (by simp [hv])]
      exact ⟨hL, hR, hlx, hrx⟩
    · rw [Insert_gt l r k (by simp [le_of_lt hv]) hv]
      have hb1 : IsBST (.node l x k (Insert r v).1) := by
        refine ⟨hL, ihr hR, hlx, ?_⟩
        intro y hy
        rcases (mem_inorder_Insert r v y).mp hy with rfl | hy
        · exact hv
        · exact hrx y hy
      rw [isBST_iff] at hb1 ⊢
      show List.Sorted _ (inorder (Split (Skew (.node l x k (Insert r v).1))))
      rwa [inorder_Split, inorder_Skew]

/-- Equation for `Erase` when descending left. -/
lemma Erase_lt {v x : V} (l r : Tree V) (k : Nat) (h : v < x) :
    Erase (.node l x k r) v =
      (eraseRebalance (.node (Erase l v).1 x k r), (Erase l v).2) := by
  rw [Erase.eq_def]
  simp [h]

/-- Equation for `Erase` when descending right. -/
lemma Erase_gt {v x : V} (l r : Tree V) (k : Nat) (h1 : ¬ v < x)
    (h2 : x < v) :
    Erase (.node l x k r) v =
      (eraseRebalance (.node l x k (Erase r v).1), (Erase r v).2) := by
  rw [Erase.eq_def]
  simp [h1, h2]

/-- Equation for `Erase` at a leaf holding the value. -/
lemma Erase_found_leaf {v x : V} (k : Nat) (h1 : ¬ v < x) (h2 : ¬ x < v) :
    Erase (.node .nil x k .nil) v = (.nil, 1) := by
  rw [Erase.eq_def]
  simp [h1, h2]

/-- Equation for `Erase` when the found node has no left son: overwrite
with the in-order successor's value and erase it from the right
subtree. -/
lemma Erase_found_succ {v x : V} (rl : Tree V) (ry : V) (rk : Nat)
    (rr : Tree V) (k : Nat) (h1 : ¬ v < x) (h2 : ¬ x < v) :
    Erase (.node .nil x k (.node rl ry rk rr)) v =
      (eraseRebalance (.node .nil (leftmostFrom ry rl) k
        (Erase (.node rl ry rk rr) (leftmostFrom ry rl)).1),
       (Erase (.node rl ry rk rr) (leftmostFrom ry rl)).2) := by
  rw [Erase.eq_def]
  simp [h1, h2]

/-- Equation for `Erase` when the found node has a left son: overwrite
with the in-order predecessor's value and erase it from the left
subtree. -/
lemma Erase_found_pred {v x : V} (ll : Tree V) (ly : V) (lk : Nat)
    (lr r : Tree V) (k : Nat) (h1 : ¬ v < x) (h2 : ¬ x < v) :
    Erase (.node (.node ll ly lk lr) x k r) v =
      (eraseRebalance (.node
        (Erase (.node ll ly lk lr) (rightmostFrom ly lr)).1
        (rightmostFrom ly lr) k r),
       (Erase (.node ll ly lk lr) (rightmostFrom ly lr)).2) := by
  rw [Erase.eq_def]
  simp [h1, h2]

/-- The `Successor` walk returns the head of the in-order traversal. -/
lemma leftmostFrom_eq_headD (u : Tree V) :
    ∀ x : V, leftmostFrom x u = (inorder u).headD x := by
  induction u with
  | nil => intro x; rfl
  | node l y k r ihl ihr =>
    intro x
    show leftmostFrom y l = (inorder l ++ y :: inorder r).headD x
    rw [ihl y]
    cases hL : inorder l <;> simp

/-- The in-order traversal of a non-null tree starts with the value the
`Successor` walk finds. -/
lemma exists_tail_leftmost (rl : Tree V) (ry : V) (rk : Nat) (rr : Tree V) :
    ∃ tl, inorder (.node rl ry rk rr) = leftmostFrom ry rl :: tl := by
  rw [show leftmostFrom ry rl = (inorder rl).headD ry from
    leftmostFrom_eq_headD rl ry]
  cases hL : inorder rl with
  | nil => exact ⟨inorder rr, by simp [inorder, hL]⟩
  | cons a as => exact ⟨as ++ ry :: inorder rr, by simp [inorder, hL]⟩

/-- The in-order traversal of a non-null tree ends with the value the
`Predecessor` walk finds. -/
lemma exists_init_rightmost (lr : Tree V) :
    ∀ (ll : Tree V) (ly : V) (lk : Nat),
      ∃ init, inorder (.node ll ly lk lr) = init ++ [rightmostFrom ly lr] := by
  induction lr with
  | nil =>
    intro ll ly lk
    exact ⟨inorder ll, by simp [inorder, rightmostFrom]⟩
  | node a y m b iha ihb =>
    intro ll ly lk
    obtain ⟨init, hinit⟩ := ihb a y m
    refine ⟨inorder ll ++ ly :: init, ?_⟩
    show inorder ll ++ ly :: inorder (.node a y m b) =
      (inorder ll ++ ly :: init) ++ [rightmostFrom y b]
    rw [hinit]
    simp

/-- Main correctness of `Erase` on a BST: the in-order traversal of the
result is the old traversal with the value removed, and `set_size_` is
decremented exactly when the value was present. -/
theorem Erase_inorder : ∀ t : Tree V, IsBST t → ∀ v : V,
    inorder (Erase t v).1 = (inorder t).erase v ∧
      (Erase t v).2 = (if v ∈ inorder t then 1 else 0) := by
  intro t
  induction t with
  | nil => intro _ v; simp [Erase, inorder]
  | node l x k r ihl ihr =>
    intro hb v
    obtain ⟨hL, hR, hlx, hrx⟩ :
        IsBST l ∧ IsBST r ∧ (∀ y ∈ inorder l, y < x) ∧
          (∀ y ∈ inorder r, x < y) := hb
    have hio : inorder (Tree.node l x k r) = inorder l ++ x :: inorder r := rfl
    rcases lt_trichotomy v x with hv | hv | hv
    · obtain ⟨hi1, hi2⟩ := ihl hL v
      have hvx : v ≠ x := ne_of_lt hv
      have hvr : v ∉ inorder r := fun hm =>
        absurd (lt_trans hv (hrx v hm)) (lt_irrefl v)
      rw [Erase_lt l r k hv]
      constructor
      · show inorder (eraseRebalance (.node (Erase l v).1 x k r)) = _
        rw [inorder_eraseRebalance]
        show inorder (Erase l v).1 ++ x :: inorder r = _
        rw [hi1, hio]
        by_cases hm : v ∈ inorder l
        · rw [List.erase_append_left _ hm]
        · rw [List.erase_of_not_mem hm, List.erase_append_right _ hm,
            List.erase_cons_tail (not_beq_of_ne (Ne.symm hvx)),
            List.erase_of_not_mem hvr]
      · show (Erase l v).2 = _
        rw [hi2, hio]
        by_cases hm : v ∈ inorder l
        · simp [hm]
        · simp [hm, hvx, hvr]
    · subst hv
      rcases l with _ | ⟨ll, ly, lk, lr⟩
      · rcases r with _ | ⟨rl, ry, rk, rr⟩
        · rw [Erase_found_leaf k (lt_irrefl v) (lt_irrefl v)]
          simp [inorder]
        · rw [Erase_found_succ rl ry rk rr k (lt_irrefl v) (lt_irrefl v)]
          obtain ⟨tl, htl⟩ := exists_tail_leftmost rl ry rk rr
          have hsr : leftmostFrom ry rl ∈ inorder (Tree.node rl ry rk rr) := by
            rw [htl]; exact List.mem_cons_self _ _
          obtain ⟨hi1, hi2⟩ := ihr hR (leftmostFrom ry rl)
          constructor
          · show inorder (eraseRebalance _) = _
            rw [inorder_eraseRebalance]
            show inorder (Tree.nil : Tree V) ++ leftmostFrom ry rl ::
              inorder (Erase (Tree.node rl ry rk rr) (leftmostFrom ry rl)).1 = _
            rw [hi1, htl, List.erase_cons_head]
            show leftmostFrom ry rl :: tl =
              (inorder (Tree.nil : Tree V) ++ v ::
                inorder (Tree.node rl ry rk rr)).erase v
            rw [show inorder (Tree.nil : Tree V) = ([] : List V) from rfl,
              List.nil_append, List.erase_cons_head, htl]
          · rw [hi2, if_pos hsr]
            simp [inorder]
      · rw [Erase_found_pred ll ly lk lr r k (lt_irrefl v) (lt_irrefl v)]
        obtain ⟨init, hinit⟩ := exists_init_rightmost lr ll ly lk
        have hsl : rightmostFrom ly lr ∈ inorder (Tree.node ll ly lk lr) := by
          rw [hinit]; simp
        have hsinit : rightmostFrom ly lr ∉ init := by
          have hsort := (isBST_iff (Tree.node ll ly lk lr)).mp hL
          rw [hinit] at hsort
          intro hmem
          exact absurd
            ((List.pairwise_append.mp hsort).2.2 _ hmem _ (by simp))
            (lt_irrefl _)
        obtain ⟨hi1, hi2⟩ := ihl hL (rightmostFrom ly lr)
        have hxl : v ∉ inorder (Tree.node ll ly lk lr) := fun hm =>
          absurd (hlx v hm) (lt_irrefl v)
        constructor
        · show inorder (eraseRebalance _) = _
          rw [inorder_eraseRebalance]
          show inorder (Erase (Tree.node ll ly lk lr) (rightmostFrom ly lr)).1 ++
            rightmostFrom ly lr :: inorder r = _
          rw [hi1, hinit, List.erase_append_right _ hsinit,
            List.erase_cons_head, hio, List.erase_append_right _ hxl,
            List.erase_cons_head, hinit]
          simp
        · have hmv : v ∈ inorder (Tree.node (Tree.node ll ly lk lr) v k r) := by
            rw [hio]; simp
          rw [hi2, if_pos hsl, if_pos hmv]
    · obtain ⟨hi1, hi2⟩ := ihr hR v
      have hxv : x ≠ v := ne_of_lt hv
      have hvl : v ∉ inorder l := fun hm =>
        absurd (lt_trans (hlx v hm) hv) (lt_irrefl v)
      rw [Erase_gt l r k (lt_asymm hv) hv]
      constructor
      · show inorder (eraseRebalance (.node l x k (Erase r v).1)) = _
        rw [inorder_eraseRebalance]
        show inorder l ++ x :: inorder (Erase r v).1 = _
        rw [hi1, hio, List.erase_append_right _ hvl,
          List.erase_cons_tail (not_beq_of_ne hxv)]
      · show (Erase r v).2 = _
        rw [hi2, hio]
        by_cases hm : v ∈ inorder r
        · simp [hm]
        · simp [hm, hvl, Ne.symm hxv]

/-- `Erase` preserves the BST ordering. -/
lemma IsBST_Erase (t : Tree V) (h : IsBST t) (v : V) : IsBST (Erase t v).1 := by
  rw [isBST_iff, (Erase_inorder t h v).1]
  exact List.Pairwise.sublist (List.erase_sublist v (inorder t))
    ((isBST_iff t).mp h)

/-- C5: on a consistent set (`set_size_` matches the traversal), `erase`
returns 1 and removes the value when it is present; when it is absent it
returns 0 and leaves the element sequence and the size unchanged (the
returned count is `if present then 1 else 0`, and the new traversal is
the old one with the value erased — the identity when it was absent). -/
theorem erase_removes_or_noop (s : SetState V) (v : V) (hb : IsBST s.root)
    (hsz : s.sz = (inorder s.root).length) :
    (setErase s v).2 = (if v ∈ inorder s.root then 1 else 0) ∧
      inorder (setErase s v).1.root = (inorder s.root).erase v ∧
      v ∉ inorder (setErase s v).1.root ∧
      (setErase s v).1.sz = (inorder (setErase s v).1.root).length := by
  obtain ⟨h1, h2⟩ := Erase_inorder s.root hb v
  have hnodup : (inorder s.root).Nodup :=
    List.Pairwise.imp ne_of_lt ((isBST_iff s.root).mp hb)
  have hroot : (setErase s v).1.root = (Erase s.root v).1 := rfl
  have hsz1 : (setErase s v).1.sz = s.sz - (Erase s.root v).2 := rfl
  have hret : (setErase s v).2 = s.sz - (s.sz - (Erase s.root v).2) := rfl
  refine ⟨?_, ?_, ?_, ?_⟩
  · rw [hret, h2]
    by_cases hm : v ∈ inorder s.root
    · have hlen : 1 ≤ (inorder s.root).length :=
        List.length_pos.mpr (List.ne_nil_of_mem hm)
      simp only [hm, if_pos]
      omega
    · simp [hm]
  · rw [hroot, h1]
  · rw [hroot, h1]
    intro hmem
    exact absurd ((hnodup.mem_erase_iff).mp hmem).1 (by simp)
  · rw [hsz1, hroot, h1, h2, hsz]
    by_cases hm : v ∈ inorder s.root
    · rw [if_pos hm, List.length_erase_of_mem hm]
    · rw [if_neg hm, List.erase_of_not_mem hm]
      simp

/-- Witness for C5 on the one-element set `{1}`: erasing `1` returns 1
and empties the traversal. -/
theorem erase_removes_or_noop_witness :
    IsBST (Tree.node .nil 1 1 .nil : Tree Nat) ∧
      (setErase (⟨.node .nil 1 1 .nil, 1⟩ : SetState Nat) 1).2 = 1 ∧
      inorder (setErase (⟨.node .nil 1 1 .nil, 1⟩ : SetState Nat) 1).1.root = [] := by
  refine ⟨by decide, ?_, ?_⟩
  · have := (erase_removes_or_noop (⟨.node .nil 1 1 .nil, 1⟩ : SetState Nat) 1
      (by decide) (by decide)).1
    simpa using this
  · have := (erase_removes_or_noop (⟨.node .nil 1 1 .nil, 1⟩ : SetState Nat) 1
      (by decide) (by decide)).2.1
    simpa using this

/-- Full characterization of the `LowerBound` descent, generalized over
the accumulated candidate `ans` and path prefix `p0`: either every value
of the subtree is below `v` and the candidate is returned unchanged, or
the returned path (an extension of the prefix) addresses the least value
of the subtree that is not below `v`. -/
lemma LowerBound_spec : ∀ u : Tree V, IsBST u →
    ∀ (v : V) (ans : Option Path) (p0 : Path),
    (LowerBound u v ans p0 = ans ∧ ∀ y ∈ inorder u, y < v) ∨
    (∃ q w, LowerBound u v ans p0 = some (p0 ++ q) ∧ valueAt u q = some w ∧
      v ≤ w ∧ w ∈ inorder u ∧ ∀ y ∈ inorder u, v ≤ y → w ≤ y) := by
  intro u
  induction u with
  | nil =>
    intro _ v ans p0
    left
    simp [LowerBound, inorder]
  | node l x k r ihl ihr =>
    intro hb v ans p0
    obtain ⟨hL, hR, hlx, hrx⟩ :
        IsBST l ∧ IsBST r ∧ (∀ y ∈ inorder l, y < x) ∧
          (∀ y ∈ inorder r, x < y) := hb
    have hio : inorder (Tree.node l x k r) = inorder l ++ x :: inorder r := rfl
    rcases lt_trichotomy v x with hv | hv | hv
    · rw [show LowerBound (Tree.node l x k r) v ans p0 =
        LowerBound l v (some p0) (p0 ++ [Dir.L]) from by simp [LowerBound, hv]]
      rcases ihl hL v (some p0) (p0 ++ [Dir.L]) with
        ⟨hres, hall⟩ | ⟨q, w, hres, hval, hvw, hmem, hmin⟩
      · right
        refine ⟨[], x, ?_, rfl, le_of_lt hv, ?_, ?_⟩
        · rw [hres]; simp
        · rw [hio]; simp
        · intro y hy hvy
          rw [hio] at hy
          rcases List.mem_append.mp hy with hy | hy
          · exact absurd hvy (not_le.mpr (hall y hy))
          · rcases List.mem_cons.mp hy with rfl | hy
            · exact le_refl y
            · exact le_of_lt (hrx y hy)
      · right
        refine ⟨Dir.L :: q, w, ?_, ?_, hvw, ?_, ?_⟩
        · rw [hres]; simp
        · rw [valueAt_cons_L]; exact hval
        · rw [hio]; exact List.mem_append.mpr (Or.inl hmem)
        · intro y hy hvy
          rw [hio] at hy
          rcases List.mem_append.mp hy with hy | hy
          · exact hmin y hy hvy
          · rcases List.mem_cons.mp hy with rfl | hy
            · exact le_of_lt (hlx w hmem)
            · exact le_of_lt (lt_trans (hlx w hmem) (hrx y hy))
    · subst hv
      right
      refine ⟨[], v, ?_, rfl, le_refl v, ?_, ?_⟩
      · simp [LowerBound]
      · rw [hio]; simp
      · intro y hy hvy
        exact hvy
    · rw [show LowerBound (Tree.node l x k r) v ans p0 =
        LowerBound r v ans (p0 ++ [Dir.R]) from by
          simp [LowerBound, hv, lt_asymm hv]]
      rcases ihr hR v ans (p0 ++ [Dir.R]) with
        ⟨hres, hall⟩ | ⟨q, w, hres, hval, hvw, hmem, hmin⟩
      · left
        refine ⟨hres, ?_⟩
        intro y hy
        rw [hio] at hy
        rcases List.mem_append.mp hy with hy | hy
        · exact lt_trans (hlx y hy) hv
        · rcases List.mem_cons.mp hy with rfl | hy
          · exact hv
          · exact hall y hy
      · right
        refine ⟨Dir.R :: q, w, ?_, ?_, hvw, ?_, ?_⟩
        · rw [hres]; simp
        · rw [valueAt_cons_R]; exact hval
        · rw [hio]
          exact List.mem_append.mpr (Or.inr (List.mem_cons.mpr (Or.inr hmem)))
        · intro y hy hvy
          rw [hio] at hy
          rcases List.mem_append.mp hy with hy | hy
          · exact absurd hvy (not_le.mpr (lt_trans (hlx y hy) hv))
          · rcases List.mem_cons.mp hy with rfl | hy
            · exact absurd hvy (not_le.mpr hv)
            · exact hmin y hy hvy

/-- On a value that is present, the `LowerBound` descent takes exactly
the same steps as the `Find` descent, whatever candidate has been
accumulated. -/
lemma LowerBound_eq_Find : ∀ u : Tree V, IsBST u → ∀ v : V, v ∈ inorder u →
    ∀ (ans : Option Path) (p0 : Path),
      LowerBound u v ans p0 = Find u v p0 := by
  intro u
  induction u with
  | nil =>
    intro _ v hm
    simp [inorder] at hm
  | node l x k r ihl ihr =>
    intro hb v hm ans p0
    obtain ⟨hL, hR, hlx, hrx⟩ :
        IsBST l ∧ IsBST r ∧ (∀ y ∈ inorder l, y < x) ∧
          (∀ y ∈ inorder r, x < y) := hb
    have hm' : v ∈ inorder l ++ x :: inorder r := hm
    rcases lt_trichotomy v x with hv | hv | hv
    · have hml : v ∈ inorder l := by
        rcases List.mem_append.mp hm' with h | h
        · exact h
        · rcases List.mem_cons.mp h with rfl | h
          · exact absurd hv (lt_irrefl v)
          · exact absurd (lt_trans hv (hrx v h)) (lt_irrefl v)
      rw [show LowerBound (Tree.node l x k r) v ans p0 =
          LowerBound l v (some p0) (p0 ++ [Dir.L]) from by simp [LowerBound, hv],
        show Find (Tree.node l x k r) v p0 = Find l v (p0 ++ [Dir.L]) from by
          simp [Find, hv]]
      exact ihl hL v hml (some p0) (p0 ++ [Dir.L])
    · subst hv
      simp [LowerBound, Find]
    · have hmr : v ∈ inorder r := by
        rcases List.mem_append.mp hm' with h | h
        · exact absurd (lt_trans (hlx v h) hv) (lt_irrefl v)
        · rcases List.mem_cons.mp h with rfl | h
          · exact absurd hv (lt_irrefl v)
          · exact h
      rw [show LowerBound (Tree.node l x k r) v ans p0 =
          LowerBound r v ans (p0 ++ [Dir.R]) from by
            simp [LowerBound, hv, lt_asymm hv],
        show Find (Tree.node l x k r) v p0 = Find r v (p0 ++ [Dir.R]) from by
          simp [Find, hv, lt_asymm hv]]
      exact ihr hR v hmr ans (p0 ++ [Dir.R])

/-- C6: `lower_bound(v)` returns the null pointer (end) when every stored
element is below `v`; otherwise it returns a node holding the minimum
stored element not below `v`; and on a present value it returns exactly
the node `find(v)` returns. -/
theorem lowerBound_min_and_eq_find (t : Tree V) (v : V) (hb : IsBST t) :
    (lowerBoundRoot t v = none → ∀ y ∈ inorder t, y < v) ∧
      (∀ p, lowerBoundRoot t v = some p → ∃ w, valueAt t p = some w ∧
        v ≤ w ∧ w ∈ inorder t ∧ ∀ y ∈ inorder t, v ≤ y → w ≤ y) ∧
      (v ∈ inorder t → lowerBoundRoot t v = findRoot t v) := by
  refine ⟨?_, ?_, ?_⟩
  · intro hnone y hy
    rcases LowerBound_spec t hb v none [] with ⟨_, hall⟩ | ⟨q, w, hres, _⟩
    · exact hall y hy
    · rw [show lowerBoundRoot t v = LowerBound t v none [] from rfl] at hnone
      rw [hnone] at hres
      exact absurd hres (by simp)
  · intro p hp
    rcases LowerBound_spec t hb v none [] with
      ⟨hres, _⟩ | ⟨q, w, hres, hval, hvw, hmem, hmin⟩
    · rw [show lowerBoundRoot t v = LowerBound t v none [] from rfl] at hp
      rw [hp] at hres
      exact absurd hres (by simp)
    · rw [show lowerBoundRoot t v = LowerBound t v none [] from rfl] at hp
      rw [hp] at hres
      obtain rfl : p = q := by simpa using hres
      exact ⟨w, hval, hvw, hmem, hmin⟩
  · intro hm
    exact LowerBound_eq_Find t hb v hm none []

/-- Witness for C6 on the set `{1, 2, 3}` at the present value 3. -/
theorem lowerBound_min_and_eq_find_witness :
    IsBST (Tree.node (.node .nil 1 1 .nil) 2 2 (.node .nil 3 1 .nil) : Tree Nat) ∧
      lowerBoundRoot
        (Tree.node (.node .nil 1 1 .nil) 2 2 (.node .nil 3 1 .nil) : Tree Nat) 3 =
      findRoot
        (Tree.node (.node .nil 1 1 .nil) 2 2 (.node .nil 3 1 .nil) : Tree Nat) 3 :=
  ⟨by decide,
    (lowerBound_min_and_eq_find _ 3 (by decide)).2.2 (by decide)⟩

lemma subAt_append (t : Tree V) (p q : Path) :
    subAt t (p ++ q) = (subAt t p).bind (fun u => subAt u q) := by
  induction p generalizing t with
  | nil => simp [subAt]
  | cons d p ih =>
    cases t with
    | nil => simp [subAt]
    | node l x k r => cases d <;> simp [subAt, ih]

lemma leftSpine_all_L : ∀ u : Tree V, ∀ d ∈ leftSpine u, d = Dir.L := by
  intro u
  induction u with
  | nil => simp [leftSpine]
  | node l x k r ihl ihr =>
    cases l with
    | nil => simp [leftSpine]
    | node a y m b =>
      intro d hd
      simp only [leftSpine] at hd
      rcases List.mem_cons.mp hd with rfl | hd
      · rfl
      · exact ihl d hd

lemma rightSpine_all_R : ∀ u : Tree V, ∀ d ∈ rightSpine u, d = Dir.R := by
  intro u
  induction u with
  | nil => simp [rightSpine]
  | node l x k r ihl ihr =>
    cases r with
    | nil => simp [rightSpine]
    | node a y m b =>
      intro d hd
      simp only [rightSpine] at hd
      rcases List.mem_cons.mp hd with rfl | hd
      · rfl
      · exact ihr d hd

/-- Walking the left spine of a non-null tree ends at a node with a null
left son. -/
lemma leftSpine_subAt : ∀ u : Tree V, u ≠ .nil →
    ∃ y m s, subAt u (leftSpine u) = some (.node .nil y m s) := by
  intro u
  induction u with
  | nil => intro hc; exact absurd rfl hc
  | node l x k r ihl ihr =>
    intro _
    cases l with
    | nil => exact ⟨x, k, r, rfl⟩
    | node a y m b =>
      obtain ⟨y2, m2, s2, hsub⟩ := ihl (by simp)
      exact ⟨y2, m2, s2, by simpa [leftSpine, subAt] using hsub⟩

/-- Walking the right spine of a non-null tree ends at a node with a null
right son. -/
lemma rightSpine_subAt : ∀ u : Tree V, u ≠ .nil →
    ∃ s y m, subAt u (rightSpine u) = some (.node s y m .nil) := by
  intro u
  induction u with
  | nil => intro hc; exact absurd rfl hc
  | node l x k r ihl ihr =>
    intro _
    cases r with
    | nil => exact ⟨l, x, k, rfl⟩
    | node a y m b =>
      obtain ⟨s2, y2, m2, hsub⟩ := ihr (by simp)
      exact ⟨s2, y2, m2, by simpa [rightSpine, subAt] using hsub⟩

lemma upPrevRev_skip : ∀ w : List Dir, (∀ d ∈ w, d = Dir.L) →
    ∀ z, upPrevRev (w ++ Dir.R :: z) = some z := by
  intro w
  induction w with
  | nil => intro _ z; rfl
  | cons d w ih =>
    intro h z
    have hd : d = Dir.L := h d (by simp)
    subst hd
    show upPrevRev (w ++ Dir.R :: z) = some z
    exact ih (fun d hd => h d (by simp [hd])) z

lemma upPrevRev_none : ∀ w : List Dir, (∀ d ∈ w, d = Dir.L) →
    upPrevRev w = none := by
  intro w
  induction w with
  | nil => intro _; rfl
  | cons d w ih =>
    intro h
    have hd : d = Dir.L := h d (by simp)
    subst hd
    show upPrevRev w = none
    exact ih (fun d hd => h d (by simp [hd]))

lemma upNextRev_skip : ∀ w : List Dir, (∀ d ∈ w, d = Dir.R) →
    ∀ z, upNextRev (w ++ Dir.L :: z) = some z := by
  intro w
  induction w with
  | nil => intro _ z; rfl
  | cons d w ih =>
    intro h z
    have hd : d = Dir.R := h d (by simp)
    subst hd
    show upNextRev (w ++ Dir.L :: z) = some z
    exact ih (fun d hd => h d (by simp [hd])) z

lemma upNextRev_none : ∀ w : List Dir, (∀ d ∈ w, d = Dir.R) →
    upNextRev w = none := by
  intro w
  induction w with
  | nil => intro _; rfl
  | cons d w ih =>
    intro h
    have hd : d = Dir.R := h d (by simp)
    subst hd
    show upNextRev w = none
    exact ih (fun d hd => h d (by simp [hd]))

/-- The `Prev` parent walk from the end of an all-left descent hung below
`p ++ [R]` comes back exactly to `p`. -/
lemma prevUp_append_spine (p s : Path) (h : ∀ d ∈ s, d = Dir.L) :
    prevUp (p ++ Dir.R :: s) = some p := by
  unfold prevUp
  rw [List.reverse_append,
    show (Dir.R :: s).reverse = s.reverse ++ [Dir.R] from by simp,
    List.append_assoc, List.singleton_append,
    upPrevRev_skip s.reverse (fun d hd => h d (List.mem_reverse.mp hd)) p.reverse]
  simp

/-- The `Next` parent walk from the end of an all-right descent hung
below `p ++ [L]` comes back exactly to `p`. -/
lemma nextUp_append_spine (p s : Path) (h : ∀ d ∈ s, d = Dir.R) :
    nextUp (p ++ Dir.L :: s) = some p := by
  unfold nextUp
  rw [List.reverse_append,
    show (Dir.L :: s).reverse = s.reverse ++ [Dir.L] from by simp,
    List.append_assoc, List.singleton_append,
    upNextRev_skip s.reverse (fun d hd => h d (List.mem_reverse.mp hd)) p.reverse]
  simp

/-- On an all-left path the `Prev` parent walk reaches the root and
returns the null parent. -/
lemma prevUp_all_L (p : Path) (h : ∀ d ∈ p, d = Dir.L) : prevUp p = none := by
  unfold prevUp
  rw [upPrevRev_none p.reverse (fun d hd => h d (List.mem_reverse.mp hd))]
  rfl

lemma upNextRev_eq_some : ∀ w z : List Dir, upNextRev w = some z →
    ∃ s, w = s ++ Dir.L :: z ∧ ∀ d ∈ s, d = Dir.R := by
  intro w
  induction w with
  | nil => intro z h; exact absurd h (by simp [upNextRev])
  | cons d w ih =>
    intro z h
    cases d with
    | L =>
      obtain rfl : w = z := by simpa [upNextRev] using h
      exact ⟨[], rfl, by simp⟩
    | R =>
      obtain ⟨s, rfl, hs⟩ := ih z h
      refine ⟨Dir.R :: s, rfl, ?_⟩
      intro d hd
      rcases List.mem_cons.mp hd with rfl | hd
      · rfl
      · exact hs d hd

lemma upPrevRev_eq_some : ∀ w z : List Dir, upPrevRev w = some z →
    ∃ s, w = s ++ Dir.R :: z ∧ ∀ d ∈ s, d = Dir.L := by
  intro w
  induction w with
  | nil => intro z h; exact absurd h (by simp [upPrevRev])
  | cons d w ih =>
    intro z h
    cases d with
    | R =>
      obtain rfl : w = z := by simpa [upPrevRev] using h
      exact ⟨[], rfl, by simp⟩
    | L =>
      obtain ⟨s, rfl, hs⟩ := ih z h
      refine ⟨Dir.L :: s, rfl, ?_⟩
      intro d hd
      rcases List.mem_cons.mp hd with rfl | hd
      · rfl
      · exact hs d hd

lemma upNextRev_eq_none : ∀ w : List Dir, upNextRev w = none →
    ∀ d ∈ w, d = Dir.R := by
  intro w
  induction w with
  | nil => simp
  | cons d w ih =>
    intro h e he
    cases d with
    | L => exact absurd h (by simp [upNextRev])
    | R =>
      rcases List.mem_cons.mp he with rfl | he
      · rfl
      · exact ih h e he

/-- The node a successful `Next` parent walk stops at: the path splits as
the result, one left step, and a run of right steps. -/
lemma nextUp_eq_some (p u : Path) (h : nextUp p = some u) :
    ∃ s, p = u ++ Dir.L :: s ∧ ∀ d ∈ s, d = Dir.R := by
  unfold nextUp at h
  rcases hx : upNextRev p.reverse with _ | z
  · rw [hx] at h; simp at h
  · rw [hx] at h
    simp at h
    obtain ⟨s, hps, hs⟩ := upNextRev_eq_some p.reverse z hx
    refine ⟨s.reverse, ?_, fun d hd => hs d (List.mem_reverse.mp hd)⟩
    have hp2 := congrArg List.reverse hps
    rw [List.reverse_reverse] at hp2
    rw [hp2]
    simp [List.reverse_append, h]

/-- The node a successful `Prev` parent walk stops at: the path splits as
the result, one right step, and a run of left steps. -/
lemma prevUp_eq_some (p u : Path) (h : prevUp p = some u) :
    ∃ s, p = u ++ Dir.R :: s ∧ ∀ d ∈ s, d = Dir.L := by
  unfold prevUp at h
  rcases hx : upPrevRev p.reverse with _ | z
  · rw [hx] at h; simp at h
  · rw [hx] at h
    simp at h
    obtain ⟨s, hps, hs⟩ := upPrevRev_eq_some p.reverse z hx
    refine ⟨s.reverse, ?_, fun d hd => hs d (List.mem_reverse.mp hd)⟩
    have hp2 := congrArg List.reverse hps
    rw [List.reverse_reverse] at hp2
    rw [hp2]
    simp [List.reverse_append, h]

/-- A failed `Next` parent walk means the path is all right steps. -/
lemma nextUp_eq_none (p : Path) (h : nextUp p = none) : ∀ d ∈ p, d = Dir.R := by
  unfold nextUp at h
  rcases hx : upNextRev p.reverse with _ | z
  · intro d hd
    exact upNextRev_eq_none p.reverse hx d (List.mem_reverse.mpr hd)
  · rw [hx] at h; simp at h

/-- An all-right path ending at a node with a null right son is the right
spine. -/
lemma rightSpine_eq : ∀ (s : Path) (u : Tree V), (∀ d ∈ s, d = Dir.R) →
    (∃ a y m, subAt u s = some (.node a y m .nil)) → rightSpine u = s := by
  intro s
  induction s with
  | nil =>
    rintro u _ ⟨a, y, m, hsub⟩
    obtain rfl : u = Tree.node a y m .nil := by simpa [subAt] using hsub
    rfl
  | cons d s ih =>
    rintro u hall ⟨a, y, m, hsub⟩
    have hd : d = Dir.R := hall d (by simp)
    subst hd
    cases u with
    | nil => simp [subAt] at hsub
    | node l x k r =>
      rw [show subAt (Tree.node l x k r) (Dir.R :: s) = subAt r s from rfl]
        at hsub
      cases r with
      | nil => cases s <;> simp [subAt] at hsub
      | node rl ry rk rr =>
        show Dir.R :: rightSpine (Tree.node rl ry rk rr) = Dir.R :: s
        rw [ih (Tree.node rl ry rk rr)
          (fun d hd => hall d (by simp [hd])) ⟨a, y, m, hsub⟩]

/-- An all-left path ending at a node with a null left son is the left
spine. -/
lemma leftSpine_eq : ∀ (s : Path) (u : Tree V), (∀ d ∈ s, d = Dir.L) →
    (∃ y m b, subAt u s = some (.node .nil y m b)) → leftSpine u = s := by
  intro s
  induction s with
  | nil =>
    rintro u _ ⟨y, m, b, hsub⟩
    obtain rfl : u = Tree.node .nil y m b := by simpa [subAt] using hsub
    rfl
  | cons d s ih =>
    rintro u hall ⟨y, m, b, hsub⟩
    have hd : d = Dir.L := hall d (by simp)
    subst hd
    cases u with
    | nil => simp [subAt] at hsub
    | node l x k r =>
      rw [show subAt (Tree.node l x k r) (Dir.L :: s) = subAt l s from rfl]
        at hsub
      cases l with
      | nil => cases s <;> simp [subAt] at hsub
      | node ll ly lk lr =>
        show Dir.L :: leftSpine (Tree.node ll ly lk lr) = Dir.L :: s
        rw [ih (Tree.node ll ly lk lr)
          (fun d hd => hall d (by simp [hd])) ⟨y, m, b, hsub⟩]

/-- C7: for a non-end iterator at node path `p` with a valid predecessor,
decrementing the incremented iterator gives back `p` (also through the
end sentinel, which `operator--` resolves to the rightmost node), and
incrementing the decremented iterator gives back `p`. -/
theorem iterator_inc_dec_symm (t : Tree V) (p : Path) (l : Tree V) (x : V)
    (k : Nat) (r : Tree V) (h : subAt t p = some (.node l x k r))
    (hpred : Prev t p ≠ none) :
    iterDec t (Next t p) = some p ∧
      ∀ q, Prev t p = some q → Next t q = some p := by
  constructor
  · cases r with
    | node rl ry rk rr =>
      rw [show Next t p = some (p ++ Dir.R :: leftSpine (.node rl ry rk rr))
        from by simp [Next, h]]
      show Prev t (p ++ Dir.R :: leftSpine (.node rl ry rk rr)) = some p
      obtain ⟨y2, m2, s2, hsub2⟩ :=
        leftSpine_subAt (Tree.node rl ry rk rr) (by simp)
      have hsub3 : subAt t (p ++ Dir.R :: leftSpine (.node rl ry rk rr)) =
          some (.node .nil y2 m2 s2) := by
        rw [subAt_append, h]
        simpa [subAt] using hsub2
      rw [show Prev t (p ++ Dir.R :: leftSpine (.node rl ry rk rr)) =
        prevUp (p ++ Dir.R :: leftSpine (.node rl ry rk rr)) from by
          simp [Prev, hsub3]]
      exact prevUp_append_spine p _ (leftSpine_all_L _)
    | nil =>
      rw [show Next t p = nextUp p from by simp [Next, h]]
      rcases hN : nextUp p with _ | u
      · show some (rightSpine t) = some p
        rw [rightSpine_eq p t (nextUp_eq_none p hN) ⟨l, x, k, h⟩]
      · show Prev t u = some p
        obtain ⟨s, hps, hs⟩ := nextUp_eq_some p u hN
        subst hps
        rw [subAt_append] at h
        rcases hu : subAt t u with _ | tu
        · rw [hu] at h; simp at h
        · rw [hu] at h
          simp at h
          cases tu with
          | nil => simp [subAt] at h
          | node lu xu ku ru =>
            rw [show subAt (Tree.node lu xu ku ru) (Dir.L :: s) = subAt lu s
              from rfl] at h
            cases lu with
            | nil => cases s <;> simp [subAt] at h
            | node a2 b2 c2 d2 =>
              rw [show Prev t u =
                some (u ++ Dir.L :: rightSpine (.node a2 b2 c2 d2)) from by
                  simp [Prev, hu]]
              rw [rightSpine_eq s (.node a2 b2 c2 d2) hs ⟨l, x, k, h⟩]
  · intro q hq
    cases l with
    | node ll ly lk lr =>
      rw [show Prev t p = some (p ++ Dir.L :: rightSpine (.node ll ly lk lr))
        from by simp [Prev, h]] at hq
      obtain rfl : q = p ++ Dir.L :: rightSpine (.node ll ly lk lr) := by
        simpa using hq.symm
      obtain ⟨s2, y2, m2, hsub2⟩ :=
        rightSpine_subAt (Tree.node ll ly lk lr) (by simp)
      have hsub3 : subAt t (p ++ Dir.L :: rightSpine (.node ll ly lk lr)) =
          some (.node s2 y2 m2 .nil) := by
        rw [subAt_append, h]
        simpa [subAt] using hsub2
      rw [show Next t (p ++ Dir.L :: rightSpine (.node ll ly lk lr)) =
        nextUp (p ++ Dir.L :: rightSpine (.node ll ly lk lr)) from by
          simp [Next, hsub3]]
      exact nextUp_append_spine p _ (rightSpine_all_R _)
    | nil =>
      rw [show Prev t p = prevUp p from by simp [Prev, h]] at hq
      obtain ⟨s, hps, hs⟩ := prevUp_eq_some p q hq
      subst hps
      rw [subAt_append] at h
      rcases hu : subAt t q with _ | tq
      · rw [hu] at h; simp at h
      · rw [hu] at h
        simp at h
        cases tq with
        | nil => simp [subAt] at h
        | node lq xq kq rq =>
          rw [show subAt (Tree.node lq xq kq rq) (Dir.R :: s) = subAt rq s
            from rfl] at h
          cases rq with
          | nil => cases s <;> simp [subAt] at h
          | node a2 b2 c2 d2 =>
            rw [show Next t q =
              some (q ++ Dir.R :: leftSpine (.node a2 b2 c2 d2)) from by
                simp [Next, hu]]
            rw [leftSpine_eq s (.node a2 b2 c2 d2) hs ⟨x, k, r, h⟩]

/-- Witness for C7 at the root of the set `{1, 2, 3}`. -/
theorem iterator_inc_dec_symm_witness :
    subAt (Tree.node (.node .nil 1 1 .nil) 2 2 (.node .nil 3 1 .nil) : Tree Nat)
        [] = some (.node (.node .nil 1 1 .nil) 2 2 (.node .nil 3 1 .nil)) ∧
      Prev (Tree.node (.node .nil 1 1 .nil) 2 2 (.node .nil 3 1 .nil) : Tree Nat)
        [] ≠ none ∧
      iterDec (Tree.node (.node .nil 1 1 .nil) 2 2 (.node .nil 3 1 .nil) : Tree Nat)
        (Next (Tree.node (.node .nil 1 1 .nil) 2 2 (.node .nil 3 1 .nil)) []) =
        some [] :=
  ⟨rfl, by decide,
    (iterator_inc_dec_symm
      (Tree.node (.node .nil 1 1 .nil) 2 2 (.node .nil 3 1 .nil)) []
      (.node .nil 1 1 .nil) 2 2 (.node .nil 3 1 .nil) rfl (by decide)).1⟩

/-- C9: on a non-empty set, `begin()` (the left spine walk) reaches a
node with a null left son, and decrementing there runs the `Prev` parent
walk, which terminates at the root and returns the null node — the
iterator becomes the end sentinel. -/
theorem dec_begin_is_end (t : Tree V) (h : t ≠ .nil) :
    (∃ y m s, subAt t (leftSpine t) = some (.node .nil y m s)) ∧
      Prev t (leftSpine t) = none := by
  obtain ⟨y, m, s, hsub⟩ := leftSpine_subAt t h
  refine ⟨⟨y, m, s, hsub⟩, ?_⟩
  rw [show Prev t (leftSpine t) = prevUp (leftSpine t) from by
    simp [Prev, hsub]]
  exact prevUp_all_L _ (leftSpine_all_L t)

/-- Witness for C9 on the set `{1, 2, 3}`. -/
theorem dec_begin_is_end_witness :
    (Tree.node (.node .nil 1 1 .nil) 2 2 (.node .nil 3 1 .nil) : Tree Nat) ≠
        .nil ∧
      Prev (Tree.node (.node .nil 1 1 .nil) 2 2 (.node .nil 3 1 .nil) : Tree Nat)
        (leftSpine (Tree.node (.node .nil 1 1 .nil) 2 2 (.node .nil 3 1 .nil))) =
        none :=
  ⟨by decide,
    (dec_begin_is_end
      (Tree.node (.node .nil 1 1 .nil) 2 2 (.node .nil 3 1 .nil)) (by decide)).2⟩

lemma lvl_rightT_le (t : Tree V) (h : invar t) : lvl (rightT t) ≤ lvl t := by
  cases t with
  | nil => exact le_refl 0
  | node l x k r =>
    obtain ⟨_, _, _, hr, _⟩ :
        invar l ∧ invar r ∧ k = lvl l + 1 ∧ (lvl r = k ∨ lvl r + 1 = k) ∧
          lvl (rightT r) < k := h
    show lvl r ≤ k
    omega

lemma Skew_eq_self_of_lvl (t : Tree V) (h : lvl (leftT t) ≠ lvl t) :
    Skew t = t := by
  cases t with
  | nil => rfl
  | node l x k r =>
    cases l with
    | nil => rfl
    | node a y ly b =>
      have h2 : ly ≠ k := h
      simp [Skew, h2]

lemma Split_eq_self_of_lvl (t : Tree V) (h : lvl (rightT (rightT t)) ≠ lvl t) :
    Split t = t := by
  cases t with
  | nil => rfl
  | node a x lx r =>
    cases r with
    | nil => rfl
    | node b y ly rr =>
      cases rr with
      | nil => rfl
      | node c z lz d =>
        have h2 : lz ≠ lx := h
        simp [Split, Ne.symm h2]

lemma exists_node_of_lvl_pos (t : Tree V) (h : 0 < lvl t) :
    ∃ a y b, t = Tree.node a y (lvl t) b := by
  cases t with
  | nil => simp [lvl] at h
  | node l x k r => exact ⟨l, x, r, rfl⟩

/-- AA insert invariant: inserting into a tree satisfying the level
invariant yields a tree satisfying it; the root level either stays or
grows by one, in which case the new root has no right-horizontal link;
and a root that had no right-horizontal link keeps its level. -/
theorem Insert_invar : ∀ t : Tree V, ∀ v : V, invar t →
    invar (Insert t v).1 ∧
      (lvl (Insert t v).1 = lvl t ∨
        (lvl (Insert t v).1 = lvl t + 1 ∧ sngl (Insert t v).1)) ∧
      (sngl t → lvl (Insert t v).1 = lvl t) := by
  intro t
  induction t with
  | nil =>
    intro v _
    refine ⟨?_, ?_, ?_⟩ <;> simp [Insert, invar, lvl, sngl, rightT]
  | node l x k r ihl ihr =>
    intro v h
    obtain ⟨hIl, hIr, hkl, hkr, hrr⟩ :
        invar l ∧ invar r ∧ k = lvl l + 1 ∧ (lvl r = k ∨ lvl r + 1 = k) ∧
          lvl (rightT r) < k := h
    rcases lt_trichotomy v x with hv | hv | hv
    · have hfst : (Insert (Tree.node l x k r) v).1 =
          Split (Skew (.node (Insert l v).1 x k r)) := by
        rw [Insert_lt l r k hv]
      obtain ⟨hIL, hD, hS⟩ := ihl v hIl
      rcases hD with hD | ⟨hD, hDs⟩
      · have hskew : Skew (.node (Insert l v).1 x k r) =
            .node (Insert l v).1 x k r :=
          Skew_eq_self_of_lvl _ (by show lvl (Insert l v).1 ≠ k; omega)
        have hsplit : Split (.node (Insert l v).1 x k r) =
            .node (Insert l v).1 x k r :=
          Split_eq_self_of_lvl _ (by show lvl (rightT r) ≠ k; omega)
        rw [hfst, hskew, hsplit]
        exact ⟨⟨hIL, hIr, by omega, hkr, hrr⟩, Or.inl rfl, fun _ => rfl⟩
      · have hlvlL : lvl (Insert l v).1 = k := by omega
        obtain ⟨a, y, b, hLeq⟩ := exists_node_of_lvl_pos _ (by omega :
          0 < lvl (Insert l v).1)
        rw [hlvlL] at hLeq
        rw [hLeq] at hIL hDs
        obtain ⟨hIa, hIb, hka, hkb, hbb⟩ :
            invar a ∧ invar b ∧ k = lvl a + 1 ∧ (lvl b = k ∨ lvl b + 1 = k) ∧
              lvl (rightT b) < k := hIL
        have hsb : lvl b < k := hDs
        have hskew : Skew (.node (Insert l v).1 x k r) =
            .node a y k (.node b x k r) := by
          rw [hLeq]; simp [Skew]
        rcases hkr with hkr | hkr
        · obtain ⟨c, z, d, hreq⟩ := exists_node_of_lvl_pos r (by omega)
          rw [hkr] at hreq
          have hld : lvl (rightT r) < k := hrr
          rw [hreq] at hld
          have hld2 : lvl d < k := hld
          have hsplit : Split (.node a y k (.node b x k r)) =
              .node (.node a y k b) x (k + 1) r := by
            rw [hreq]; simp [Split]
          rw [hfst, hskew, hsplit]
          refine ⟨?_, Or.inr ⟨rfl, ?_⟩, fun hs => ?_⟩
          · refine ⟨⟨hIa, hIb, hka, Or.inr (by omega), by
              have := lvl_rightT_le b hIb; omega⟩, hIr, rfl, ?_, ?_⟩
            · show lvl r = k + 1 ∨ lvl r + 1 = k + 1
              omega
            · show lvl (rightT r) < k + 1
              omega
          · show lvl r < k + 1
            omega
          · have hcontr : lvl r < k := hs
            omega
        · have hsplit : Split (.node a y k (.node b x k r)) =
              .node a y k (.node b x k r) :=
            Split_eq_self_of_lvl _ (by show lvl r ≠ k; omega)
          rw [hfst, hskew, hsplit]
          refine ⟨?_, Or.inl rfl, fun _ => rfl⟩
          refine ⟨hIa, ⟨hIb, hIr, by omega, Or.inr hkr, hrr⟩, hka,
            Or.inl rfl, ?_⟩
          show lvl r < k
          omega
    · rw [Insert_found l r k (by simp [hv]) (by simp [hv])]
      exact ⟨⟨hIl, hIr, hkl, hkr, hrr⟩, Or.inl rfl, fun _ => rfl⟩
    · have hfst : (Insert (Tree.node l x k r) v).1 =
          Split (Skew (.node l x k (Insert r v).1)) := by
        rw [Insert_gt l r k (lt_asymm hv) hv]
      obtain ⟨hIR, hD, hS⟩ := ihr v hIr
      have hskew : Skew (.node l x k (Insert r v).1) =
          .node l x k (Insert r v).1 :=
        Skew_eq_self_of_lvl _ (by show lvl l ≠ k; omega)
      rcases hkr with hkr | hkr
      · have hsr : sngl r := by
          obtain ⟨c, z, d, hreq⟩ := exists_node_of_lvl_pos r (by omega)
          have hld : lvl (rightT r) < k := hrr
          rw [hreq] at hld ⊢
          show lvl d < lvl r
          exact lt_of_lt_of_le hld (by omega)
        have hR' : lvl (Insert r v).1 = lvl r := hS hsr
        by_cases hsp : lvl (rightT (Insert r v).1) = k
        · obtain ⟨B, Y, C, hReq⟩ := exists_node_of_lvl_pos (Insert r v).1
            (by omega)
          rw [hR', hkr] at hReq
          rw [hReq] at hIR hsp
          obtain ⟨hIB, hIC, hkB, hkC, hCC⟩ :
              invar B ∧ invar C ∧ k = lvl B + 1 ∧
                (lvl C = k ∨ lvl C + 1 = k) ∧ lvl (rightT C) < k := hIR
          have hlC : lvl C = k := hsp
          obtain ⟨c2, z2, d2, hCeq⟩ := exists_node_of_lvl_pos C (by omega)
          rw [hlC] at hCeq
          have hsplit : Split (.node l x k (.node B Y k C)) =
              .node (.node l x k B) Y (k + 1) C := by
            rw [hCeq]; simp [Split]
          rw [hfst, hReq] at *
          rw [show Skew (.node l x k (.node B Y k C)) =
            .node l x k (.node B Y k C) from
              Skew_eq_self_of_lvl _ (by show lvl l ≠ k; omega), hsplit]
          refine ⟨?_, Or.inr ⟨rfl, ?_⟩, fun hs => ?_⟩
          · refine ⟨⟨hIl, hIB, hkl, Or.inr (by omega), by
              have := lvl_rightT_le B hIB; omega⟩, hIC, rfl, ?_, ?_⟩
            · show lvl C = k + 1 ∨ lvl C + 1 = k + 1
              omega
            · show lvl (rightT C) < k + 1
              omega
          · show lvl C < k + 1
            omega
          · have hcontr : lvl r < k := hs
            omega
        · have hsplit : Split (.node l x k (Insert r v).1) =
              .node l x k (Insert r v).1 :=
            Split_eq_self_of_lvl _
              (by show lvl (rightT (Insert r v).1) ≠ k; exact hsp)
          rw [hfst, hskew, hsplit]
          have hle := lvl_rightT_le _ hIR
          refine ⟨⟨hIl, hIR, hkl, Or.inl (by omega), by omega⟩,
            Or.inl ?_, fun _ => ?_⟩
          · show lvl (Tree.node l x k (Insert r v).1) = k
            rfl
          · rfl
      · rcases hD with hD | ⟨hD, hDs⟩
        · have hle := lvl_rightT_le _ hIR
          have hsplit : Split (.node l x k (Insert r v).1) =
              .node l x k (Insert r v).1 :=
            Split_eq_self_of_lvl _
              (by show lvl (rightT (Insert r v).1) ≠ k; omega)
          rw [hfst, hskew, hsplit]
          exact ⟨⟨hIl, hIR, hkl, Or.inr (by omega), by omega⟩,
            Or.inl rfl, fun _ => rfl⟩
        · obtain ⟨B, Y, C, hReq⟩ := exists_node_of_lvl_pos (Insert r v).1
            (by omega)
          have hsC : lvl (rightT (Insert r v).1) < lvl (Insert r v).1 := by
            rw [hReq] at hDs ⊢
            exact hDs
          have hsplit : Split (.node l x k (Insert r v).1) =
              .node l x k (Insert r v).1 :=
            Split_eq_self_of_lvl _
              (by show lvl (rightT (Insert r v).1) ≠ k; omega)
          rw [hfst, hskew, hsplit]
          exact ⟨⟨hIl, hIR, hkl, Or.inl (by omega), by omega⟩,
            Or.inl rfl, fun _ => rfl⟩

/-- C2 (amended): every state reachable from the empty set by a finite
sequence of insert/erase operations has a strictly increasing in-order
traversal; when the sequence contains only insertions the AA level
invariant (clauses 2a-2d) also holds at every node.  (The counterexample
`invar_broken_after_erase` shows erase can break clause 2b.) -/
theorem bst_always_and_invar_for_inserts (ops : List (Op V)) :
    (inorder (applyOps ops)).Sorted (· < ·) ∧
      ((∀ op ∈ ops, op.isIns = true) → invar (applyOps ops)) := by
  have main : ∀ (ops2 : List (Op V)) (t : Tree V), IsBST t →
      IsBST (List.foldl applyOp t ops2) ∧
        ((∀ op ∈ ops2, op.isIns = true) → invar t →
          invar (List.foldl applyOp t ops2)) := by
    intro ops2
    induction ops2 with
    | nil => intro t hb; exact ⟨hb, fun _ hi => hi⟩
    | cons op rest ih =>
      intro t hb
      cases op with
      | ins v =>
        obtain ⟨h1, h2⟩ := ih ((Insert t v).1) (IsBST_Insert t v hb)
        refine ⟨h1, fun hall hi => ?_⟩
        exact h2 (fun o ho => hall o (List.mem_cons_of_mem _ ho))
          (Insert_invar t v hi).1
      | del v =>
        obtain ⟨h1, h2⟩ := ih ((Erase t v).1) (IsBST_Erase t hb v)
        refine ⟨h1, fun hall _ => ?_⟩
        exact absurd (hall (Op.del v) (List.mem_cons_self _ _))
          (by simp [Op.isIns])
  obtain ⟨h1, h2⟩ := main ops Tree.nil trivial
  exact ⟨(isBST_iff _).mp h1, fun hall => h2 hall trivial⟩

/-- Witness for C2's amended claim on the insert-only sequence
2, 1, 3. -/
theorem bst_always_and_invar_for_inserts_witness :
    (∀ op ∈ [Op.ins (2 : Nat), Op.ins 1, Op.ins 3], op.isIns = true) ∧
      invar (applyOps [Op.ins (2 : Nat), Op.ins 1, Op.ins 3]) ∧
      (inorder (applyOps [Op.ins (2 : Nat), Op.ins 1, Op.ins 3])).Sorted
        (· < ·) := by
  refine ⟨by decide, ?_, ?_⟩
  · exact (bst_always_and_invar_for_inserts _).2 (by decide)
  · exact (bst_always_and_invar_for_inserts _).1

omit [LinearOrder V] in
/-- C10: move-assigning a set to itself (`S = std::move(S)`) leaves the
whole store unchanged: the swap of `tree_root_` with itself does nothing
and `set_size_` is copied from itself. -/
theorem self_move_assign_id (σ : Nat → SetState V) (i : Nat) :
    moveAssignStore σ i i = σ := by
  funext j
  by_cases h : j = i
  · subst h
    simp [moveAssignStore, Function.update_same]
  · simp [moveAssignStore, Function.update_noteq h]

end AASet
